/-
Verification development for the Cronjob_mobula backup system.

The repository encrypts backup archives with AES-256-GCM under a master key
that is split into Shamir secret-sharing shares (hashicorp/vault shamir), and
manages a time-partitioned archive store with an age-based retention policy.

This file gives a shallow embedding of the relevant Go functions and settles
the frozen claims about them:

* `encryptData` / `decryptFile`  — cmd/test/decrypt.go (AES-GCM envelope);
  the AEAD primitive itself (`crypto/cipher` GCM over `crypto/aes`) is a Go
  standard-library dependency, not part of the repository, so it is modelled
  from the spec as a CTR keystream XOR plus an appended authentication tag,
  abstracted over the keystream and tag functions.
* `polyEval` / `shamirShare` / `shamirSplit` / `shamirCombine` — the
  hashicorp/vault shamir library is an external dependency, so the threshold
  scheme is modelled from the spec: per-byte random polynomials over a finite
  field with Lagrange interpolation at zero.
* `checkRetentionPolicy` / `removeEmptyDirs` — cmd/script/snapshot.go, the
  retention sweep over a store of files and directories.
* `createArchitecturedDiskImageWithTime` — cmd/script/save_architectured_snapshot.go,
  the time-partitioned placement path (year/day/month/hour), with path
  components modelled as zero-padded decimal digit lists (ASCII digit order
  coincides with numeric digit order, so lexicographic comparisons agree).
* `keygenMain` — the key-generation flow of the key generator
  (src/unnamed/part_004 `main`), as a trace of externally visible events
  parameterised by the outcome of each I/O step.
* `workerLoop` / `runBruteForceTest` — test_encryption/main.go, the
  brute-force worker select-loop, with the shared `done` channel modelled as
  a per-worker stop schedule.

`GF5` is a small concrete field (arithmetic of `Fin 5`, inverse by cubing)
used to evaluate the field-generic definitions on explicit inputs.
-/
import Mathlib

namespace Mobula

/-! ### A small computable field for concrete evaluations -/

/-- A concrete five-element field: the commutative ring `Fin 5` with the
inverse given by cubing (`a⁻¹ = a ^ 3`, valid since `a ^ 4 = 1` for `a ≠ 0`).
Every operation reduces in the kernel, so `decide` can evaluate the
field-generic definitions below at explicit `GF5` inputs. -/
def GF5 : Type := Fin 5

instance : CommRing GF5 := inferInstanceAs (CommRing (Fin 5))

instance : DecidableEq GF5 := inferInstanceAs (DecidableEq (Fin 5))

instance : Fintype GF5 := inferInstanceAs (Fintype (Fin 5))

instance : Field GF5 where
  inv := fun a => a ^ 3
  exists_pair_ne := ⟨0, 1, by decide⟩
  mul_inv_cancel := by decide
  inv_zero := by decide
  nnqsmul := _
  qsmul := _

/-! ### AEAD layer (spec-modelled GCM) and the Go envelope functions -/

/-- Nonce width of AES-GCM (`gcm.NonceSize()` = 12 bytes). -/
def nonceSize : Nat := 12

/-- Authentication-tag width of AES-GCM (`gcm.Overhead()` = 16 bytes). -/
def tagSize : Nat := 16

/-- Modelled from the spec: the external AEAD primitive
(`cipher.NewGCM(aes.NewCipher(key))` from the Go standard library, not part of
this repository).  Per §4.2 of the spec it is an authenticated cipher with a
per-(key, nonce) keystream (GCM is CTR mode) and an integrated authentication
tag; the keystream and tag derivations are abstracted as fields.  `Key` is
abstract so the model composes with both byte keys and field-element keys. -/
structure AEAD (Key : Type) where
  ks : Key → List Nat → Nat → Nat
  tag : Key → List Nat → List Nat → List Nat
  tag_len : ∀ k n c, (tag k n c).length = tagSize

/-- CTR-mode byte stream: XOR each plaintext byte with the keystream byte at
its position. -/
def ctrXor (ks : Nat → Nat) (p : List Nat) : List Nat :=
  (List.range p.length).map fun i => Nat.xor (p.getD i 0) (ks i)

/-- Modelled from the spec: `gcm.Seal(nil, nonce, plaintext, nil)` — the body
is the keystream-XORed plaintext, with the authentication tag appended. -/
def gcmSeal {Key : Type} (A : AEAD Key) (key : Key) (nonce p : List Nat) : List Nat :=
  ctrXor (A.ks key nonce) p ++ A.tag key nonce (ctrXor (A.ks key nonce) p)

/-- Modelled from the spec: `gcm.Open(nil, nonce, ciphertext, nil)` — reject
inputs shorter than the tag, recompute the tag over the body and compare;
on a match undo the keystream XOR, otherwise fail with no plaintext. -/
def gcmOpen {Key : Type} (A : AEAD Key) (key : Key) (nonce c : List Nat) : Option (List Nat) :=
  if c.length < tagSize then none
  else if c.drop (c.length - tagSize) = A.tag key nonce (c.take (c.length - tagSize)) then
    some (ctrXor (A.ks key nonce) (c.take (c.length - tagSize)))
  else none

/-- Embedding of `encryptData` (cmd/test/decrypt.go lines 230–248): generate a
nonce (here an explicit argument standing for the fresh random draw), seal the
plaintext, and prepend the nonce (`gcm.Seal(nonce, nonce, plaintext, nil)`). -/
def encryptData {Key : Type} (A : AEAD Key) (key : Key) (nonce p : List Nat) : List Nat :=
  nonce ++ gcmSeal A key nonce p

/-- Embedding of `decryptFile` (cmd/test/decrypt.go lines 251–280), with the
file contents passed as `blob`: reject blobs shorter than the nonce, split off
the nonce, and open the remainder; a failed open is the Go
`cipher: message authentication failed` error and yields no plaintext bytes. -/
def decryptFile {Key : Type} (A : AEAD Key) (key : Key) (blob : List Nat) :
    Except String (List Nat) :=
  if blob.length < nonceSize then .error "ciphertext too short"
  else
    match gcmOpen A key (blob.take nonceSize) (blob.drop nonceSize) with
    | some p => .ok p
    | none => .error "cipher: message authentication failed"

/-- A concrete AEAD instance (zero keystream, constant tag) used only to
evaluate the envelope functions on explicit inputs. -/
def trivAEAD (Key : Type) : AEAD Key where
  ks := fun _ _ _ => 0
  tag := fun _ _ _ => List.replicate tagSize 0
  tag_len := fun _ _ _ => List.length_replicate ..

/-! ### Shamir secret sharing (spec-modelled)

The hashicorp/vault shamir library used by `createKeyShares`
(src/unnamed/part_004 lines 130–150) is an external dependency, so per the
spec (§4.1) the scheme is modelled over an arbitrary field `F`: each byte of
the secret is the constant term of a random degree-(t−1) polynomial, shares
are evaluations at distinct non-zero points (the byte values `1..n` in the
GF(256) instance, here an abstract injective non-zero `idx`), and `Combine`
interpolates each byte at zero.  The random tail coefficients are an explicit
argument `rand`, standing for the library's random draws. -/

/-- Modelled from the spec: evaluation of the polynomial with coefficient list
`coeffs` (constant term first) at `x`, by Horner's rule. -/
def polyEval {F : Type} [Field F] (coeffs : List F) (x : F) : F :=
  coeffs.foldr (fun c acc => c + x * acc) 0

/-- Modelled from the spec: the share payload for evaluation point `x` — for
each byte `j` of the secret, the polynomial with constant term `secret[j]` and
random tail `rand j`, evaluated at `x`. -/
def shamirShare {F : Type} [Field F] (secret : List F) (rand : Nat → List F) (x : F) : List F :=
  (List.range secret.length).map fun j => polyEval (secret.getD j 0 :: rand j) x

/-- Modelled from the spec: `shamir.Split` — one share per evaluation point
`idx i`, each share carrying its evaluation point and its per-byte values. -/
def shamirSplit {F : Type} [Field F] {n : Nat} (secret : List F) (rand : Nat → List F)
    (idx : Fin n → F) : Fin n → F × List F :=
  fun i => (idx i, shamirShare secret rand (idx i))

/-- Lagrange basis coefficient at zero for node `i` of the nodes `xs`. -/
def lagrangeZero {F : Type} [Field F] [DecidableEq F] {t : Nat} (xs : Fin t → F) (i : Fin t) :
    F :=
  ∏ j ∈ Finset.univ.erase i, xs j * (xs j - xs i)⁻¹

/-- Interpolated value at zero from `t` nodes `xs` and values `ys`. -/
def interpolateZero {F : Type} [Field F] [DecidableEq F] {t : Nat} (xs ys : Fin t → F) : F :=
  ∑ i, ys i * lagrangeZero xs i

/-- Modelled from the spec: `shamir.Combine` — recover each of the `m` secret
bytes by Lagrange interpolation at zero over the supplied shares (`m` is the
byte count, read off the share payload length by the library). -/
def shamirCombine {F : Type} [Field F] [DecidableEq F] {t : Nat} (m : Nat)
    (shares : Fin t → F × List F) : List F :=
  (List.range m).map fun j =>
    interpolateZero (fun i => (shares i).1) (fun i => (shares i).2.getD j 0)

/-- The polynomial denoted by a coefficient list (constant term first); a
proof-side auxiliary linking `polyEval` to Mathlib polynomials. -/
noncomputable def listPoly {F : Type} [Field F] : List F → Polynomial F
  | [] => 0
  | c :: cs => Polynomial.C c + Polynomial.X * listPoly cs

/-! ### Retention sweep (cmd/script/snapshot.go) -/

/-- A file in the archive store: its containing directory (path components
under the store root), its name, modification time (in days, so the cutoff
arithmetic matches `time.Now().AddDate(0, 0, -retentionDays)`), size, and
contents. -/
structure FSFile where
  dir : List String
  name : String
  mtime : Int
  size : Nat
  data : List Nat
deriving DecidableEq

/-- The archive store: the directories below the root (the root itself is
never removed by the code and is left out) and the files. -/
structure Store where
  dirs : List (List String)
  files : List FSFile
deriving DecidableEq

/-- The suffix check `strings.HasSuffix(info.Name(), ".encrypted")` of
snapshot.go line 325, modelled on the underlying character list. -/
def hasEncSuffix (name : String) : Bool :=
  (".encrypted".data).isSuffixOf name.data

/-- The removal predicate of the `filepath.Walk` callback in
`checkRetentionPolicy` (snapshot.go lines 320–338): a file is removed iff its
name ends in `.encrypted` and its modification time is before the cutoff. -/
def expiredEncrypted (cutoff : Int) (f : FSFile) : Bool :=
  hasEncSuffix f.name && decide (f.mtime < cutoff)

/-- Whether directory `d` currently has an entry: a file directly inside it,
or an immediate subdirectory still present (`os.Remove` on a directory
succeeds exactly when it has no entries). -/
def dirHasEntry (ds : List (List String)) (files : List FSFile) (d : List String) : Bool :=
  files.any (fun f => decide (f.dir = d)) ||
    ds.any (fun e => decide (e ≠ []) && decide (e.dropLast = d))

/-- One visit of the `removeEmptyDirs` walk (snapshot.go lines 387–401):
`os.Remove(path)` succeeds exactly when the directory is empty; the error on
a non-empty directory is ignored and the walk continues. -/
def rmStep (files : List FSFile) (ds : List (List String)) (d : List String) :
    List (List String) :=
  if dirHasEntry ds files d then ds else ds.erase d

/-- Embedding of `removeEmptyDirs` (snapshot.go lines 387–401):
`filepath.Walk` visits the directories in `order` — the lexical pre-order of
the tree, so every parent is visited before its children — and attempts to
remove each one in turn. -/
def removeEmptyDirs (files : List FSFile) (order ds : List (List String)) :
    List (List String) :=
  order.foldl (rmStep files) ds

/-- Embedding of `checkRetentionPolicy` (snapshot.go lines 308–350): with a
non-positive retention setting the sweep returns immediately; otherwise every
`.encrypted` file whose modification time is before `now − retentionDays` is
removed, and if at least one file was removed the empty-directory pass runs.
Returns the store after the sweep and the list of removed files. -/
def checkRetentionPolicy (retentionDays now : Int) (order : List (List String)) (st : Store) :
    Store × List FSFile :=
  if retentionDays ≤ 0 then (st, [])
  else
    let cutoff := now - retentionDays
    let removed := st.files.filter (fun f => expiredEncrypted cutoff f)
    let kept := st.files.filter (fun f => !(expiredEncrypted cutoff f))
    let dirs := if removed.length > 0 then removeEmptyDirs kept order st.dirs else st.dirs
    (⟨dirs, kept⟩, removed)

/-- Concrete two-level store (a file `a/b/x.encrypted` and the directory
chain `a`, `a/b`) used to evaluate the retention sweep. -/
def nestedStore : Store :=
  ⟨[["a"], ["a", "b"]], [⟨["a", "b"], "x.encrypted", 0, 1, []⟩]⟩

/-! ### Archive placement path (cmd/script/save_architectured_snapshot.go) -/

/-- A wall-clock timestamp as read by the placement-path functions: year,
month (1–12), day (1–31), hour (0–23), minute (0–59). -/
structure Timestamp where
  year : Nat
  month : Nat
  day : Nat
  hour : Nat
  minute : Nat
deriving DecidableEq

/-- Bounds of the fields of a real `time.Time` timestamp. -/
def Timestamp.valid (ts : Timestamp) : Bool :=
  decide (ts.year < 10000) && decide (1 ≤ ts.month) && decide (ts.month ≤ 12) &&
    decide (1 ≤ ts.day) && decide (ts.day ≤ 31) && decide (ts.hour < 24) &&
    decide (ts.minute < 60)

/-- Chronological strict order on timestamps (year, month, day, hour, minute,
lexicographically). -/
def Timestamp.before (a b : Timestamp) : Bool :=
  decide (a.year < b.year) ||
    (decide (a.year = b.year) && (decide (a.month < b.month) ||
      (decide (a.month = b.month) && (decide (a.day < b.day) ||
        (decide (a.day = b.day) && (decide (a.hour < b.hour) ||
          (decide (a.hour = b.hour) && decide (a.minute < b.minute))))))))

/-- The digit list of `fmt.Sprintf("%02d", n)` for `n < 100`.  Digits are
modelled by their values: the ASCII order of digit characters coincides with
the numeric order, so string comparisons agree with digit-list comparisons. -/
def pad2 (n : Nat) : List Nat := [n / 10, n % 10]

/-- The digit list of `fmt.Sprintf("%04d", n)` for `n < 10000`. -/
def pad4 (n : Nat) : List Nat := [n / 1000, n / 100 % 10, n / 10 % 10, n % 10]

/-- Embedding of `createArchitecturedDiskImageWithTime` (lines 19–39): the
directory components `year/DAY/MONTH/hour` — note day before month — followed
by the file name `disk_image_<DDMMYYYY_HHMM>` (`now.Format("02012006_1504")`).
The fixed letters and underscores are identical in every name, so a name is
modelled by its digit positions: `DDMMYYYY` then `HHMM`. -/
def createArchitecturedDiskImageWithTime (ts : Timestamp) : List (List Nat) :=
  [pad4 ts.year, pad2 ts.day, pad2 ts.month, pad2 ts.hour,
    pad2 ts.day ++ pad2 ts.month ++ pad4 ts.year ++ pad2 ts.hour ++ pad2 ts.minute]

/-- Lexicographic strict order on digit lists — the order of the
corresponding strings. -/
def digitsLt : List Nat → List Nat → Bool
  | [], [] => false
  | [], _ :: _ => true
  | _ :: _, [] => false
  | a :: as, b :: bs => if a < b then true else if b < a then false else digitsLt as bs

/-- Lexicographic strict order on paths (component lists) — the order of the
corresponding slash-joined strings (components at equal depth have equal
width, so the separators never decide a comparison). -/
def pathLt : List (List Nat) → List (List Nat) → Bool
  | [], [] => false
  | [], _ :: _ => true
  | _ :: _, [] => false
  | a :: as, b :: bs =>
    if digitsLt a b then true else if digitsLt b a then false else pathLt as bs

/-! ### Key generation flow (src/unnamed/part_004 `main`) -/

/-- Externally visible events of one run of the key generator. -/
inductive KeygenEvent where
  | wroteKeyFile
  | displayedShares
  | wroteMetadata
  | errorKeyGen
  | errorCreateShares
  | errorSaveKeyInfo
  | completed
deriving DecidableEq

/-- Embedding of the key-generation `main` (src/unnamed/part_004 lines
82–113) as the sequence of externally visible events, parameterised by the
outcome of each I/O step: `generateMasterKey` writes the key file, then
`createKeyShares` splits it, then `displayKeyShares` prints the shares to the
operator, and only then is `saveKeyInfo` called to write the metadata file;
each failure prints its generic error message and exits the process. -/
def keygenMain (keyWriteOk sharesOk metaWriteOk : Bool) : List KeygenEvent :=
  if !keyWriteOk then [.errorKeyGen]
  else if !sharesOk then [.wroteKeyFile, .errorCreateShares]
  else if !metaWriteOk then [.wroteKeyFile, .displayedShares, .errorSaveKeyInfo]
  else [.wroteKeyFile, .displayedShares, .wroteMetadata, .completed]

/-! ### Brute-force harness (test_encryption/main.go) -/

/-- Result of one worker of the brute-force test: it observed the shared
`done` channel closed at iteration `k` and exited cooperatively, or its
Combine+Decrypt attempt at iteration `k` succeeded — the worker prints the
`CRITICAL: ENCRYPTION CRACKED` message, closes `done` and returns at once —
or the modelling fuel ran out. -/
inductive WorkerResult where
  | stopped (k : Nat)
  | cracked (k : Nat)
  | outOfFuel
deriving DecidableEq

/-- Embedding of the worker select-loop of `runBruteForceTest`
(test_encryption/main.go lines 210–243): each iteration first polls the stop
signal (`case <-done`) and exits if it has fired; otherwise it makes one
random Combine+Decrypt attempt (`succ k` is whether `decryptFile(filename,
generateRandomShares())` returned true at iteration `k`); a successful
attempt ends the run as a critical failure, a failed one increments the local
counter and continues.  `stop` is this worker's view of the shared `done`
channel, closed by the duration timer or by any worker's success. -/
def workerLoop (stop succ : Nat → Bool) : Nat → Nat → WorkerResult
  | _, 0 => .outOfFuel
  | k, fuel + 1 =>
    if stop k then .stopped k
    else if succ k then .cracked k
    else workerLoop stop succ (k + 1) fuel

/-- Embedding of `runBruteForceTest` (lines 199–264): `w` workers run the
select-loop independently from iteration 0; worker `i` observes the stop
schedule `stop i` and the attempt outcomes `succ i`. -/
def runBruteForceTest (w : Nat) (stop succ : Fin w → Nat → Bool) (fuel : Nat) :
    Fin w → WorkerResult :=
  fun i => workerLoop (stop i) (succ i) 0 fuel

end Mobula

namespace Mobula

/-! ### Theorems: AEAD layer -/

theorem ctrXor_length (ks : Nat → Nat) (p : List Nat) : (ctrXor ks p).length = p.length := by
  simp [ctrXor]

theorem ctrXor_ctrXor (ks : Nat → Nat) (p : List Nat) : ctrXor ks (ctrXor ks p) = p := by
  apply List.ext_getElem
  · simp [ctrXor]
  · intro i h₁ h₂
    simp only [ctrXor, List.getElem_map, List.getElem_range, List.getD_eq_getElem?_getD,
      List.getElem?_map, List.getElem?_range, h₂, if_pos]
    simp only [Option.map_some', Option.getD_some]
    rw [List.getElem?_eq_getElem h₂]
    simp only [Option.getD_some]
    show p[i] ^^^ ks i ^^^ ks i = p[i]
    rw [Nat.xor_assoc, Nat.xor_self, Nat.xor_zero]

theorem gcmOpen_gcmSeal {Key : Type} (A : AEAD Key) (key : Key) (nonce p : List Nat) :
    gcmOpen A key nonce (gcmSeal A key nonce p) = some p := by
  have hct : (ctrXor (A.ks key nonce) p).length = p.length := ctrXor_length _ _
  have htag : (A.tag key nonce (ctrXor (A.ks key nonce) p)).length = tagSize :=
    A.tag_len key nonce _
  have hlen : (gcmSeal A key nonce p).length = p.length + tagSize := by
    simp [gcmSeal, hct, htag]
  rw [gcmOpen, if_neg (by omega)]
  have hsub : (gcmSeal A key nonce p).length - tagSize = (ctrXor (A.ks key nonce) p).length := by
    omega
  rw [hsub,
    show gcmSeal A key nonce p =
      ctrXor (A.ks key nonce) p ++ A.tag key nonce (ctrXor (A.ks key nonce) p) from rfl,
    List.take_left, List.drop_left, if_pos rfl, ctrXor_ctrXor]

/-- C2: decrypting the blob produced by encrypting a plaintext under a 32-byte
key (fresh nonce prepended, tag integrated) returns exactly the plaintext. -/
theorem C2_encrypt_decrypt_roundtrip (A : AEAD (List Nat)) (key : List Nat) (nonce p : List Nat)
    (hkey : key.length = 32) (hnonce : nonce.length = nonceSize) :
    decryptFile A key (encryptData A key nonce p) = .ok p := by
  have hlen : (encryptData A key nonce p).length =
      nonceSize + ((ctrXor (A.ks key nonce) p).length + tagSize) := by
    simp [encryptData, gcmSeal, hnonce, A.tag_len]
  have htake : (encryptData A key nonce p).take nonceSize = nonce := by
    rw [encryptData, ← hnonce, List.take_left]
  have hdrop : (encryptData A key nonce p).drop nonceSize = gcmSeal A key nonce p := by
    rw [encryptData, ← hnonce, List.drop_left]
  rw [decryptFile, if_neg (by omega)]
  rw [htake, hdrop, gcmOpen_gcmSeal]

theorem C2_encrypt_decrypt_roundtrip_witness :
    (List.replicate 32 7 : List Nat).length = 32 ∧
      (List.replicate 12 0 : List Nat).length = nonceSize ∧
      decryptFile (trivAEAD (List Nat)) (List.replicate 32 7)
        (encryptData (trivAEAD (List Nat)) (List.replicate 32 7) (List.replicate 12 0)
          [104, 101, 108, 108, 111]) = .ok [104, 101, 108, 108, 111] :=
  ⟨by decide, by decide,
    C2_encrypt_decrypt_roundtrip (trivAEAD (List Nat)) (List.replicate 32 7)
      (List.replicate 12 0) [104, 101, 108, 108, 111] (by decide) (by decide)⟩

/-- C4: `decryptFile` returns an error and no plaintext bytes whenever the blob
is shorter than the nonce or the authentication tag over the body does not
match the stored tag, and for a fixed (key, blob) pair its result is always
the same (the embedding is a pure function, so determinism is equality of
results on equal inputs). -/
theorem C4_decrypt_rejects_malformed {Key : Type} (A : AEAD Key) (key : Key) (blob : List Nat) :
    (blob.length < nonceSize → decryptFile A key blob = .error "ciphertext too short") ∧
    (¬ blob.length < nonceSize →
      (blob.drop nonceSize).drop ((blob.drop nonceSize).length - tagSize) ≠
        A.tag key (blob.take nonceSize)
          ((blob.drop nonceSize).take ((blob.drop nonceSize).length - tagSize)) →
      decryptFile A key blob = .error "cipher: message authentication failed") ∧
    (∀ blob₂, blob = blob₂ → decryptFile A key blob = decryptFile A key blob₂) := by
  refine ⟨fun h => ?_, fun h hmis => ?_, fun _ h => by rw [h]⟩
  · rw [decryptFile, if_pos h]
  · rw [decryptFile, if_neg h, gcmOpen]
    by_cases hs : (blob.drop nonceSize).length < tagSize
    · rw [if_pos hs]
    · rw [if_neg hs, if_neg hmis]

theorem C4_decrypt_rejects_malformed_witness :
    decryptFile (trivAEAD (List Nat)) (List.replicate 32 7) [5] = .error "ciphertext too short" ∧
      decryptFile (trivAEAD (List Nat)) (List.replicate 32 7)
        (List.replicate 12 0 ++ List.replicate 16 1) =
        .error "cipher: message authentication failed" :=
  ⟨(C4_decrypt_rejects_malformed (trivAEAD (List Nat)) (List.replicate 32 7) [5]).1 (by decide),
    (C4_decrypt_rejects_malformed (trivAEAD (List Nat)) (List.replicate 32 7)
      (List.replicate 12 0 ++ List.replicate 16 1)).2.1 (by decide) (by decide)⟩

/-! ### Theorems: Shamir secret sharing -/

theorem polyEval_eq_eval {F : Type} [Field F] (coeffs : List F) (x : F) :
    polyEval coeffs x = (listPoly coeffs).eval x := by
  induction coeffs with
  | nil => simp [polyEval, listPoly]
  | cons c cs ih =>
    simp only [polyEval, List.foldr_cons, listPoly, Polynomial.eval_add, Polynomial.eval_C,
      Polynomial.eval_mul, Polynomial.eval_X]
    rw [← ih]
    rfl

theorem listPoly_degree_lt {F : Type} [Field F] (coeffs : List F) :
    (listPoly coeffs).degree < ((coeffs.length : Nat) : WithBot Nat) := by
  induction coeffs with
  | nil =>
    simp only [listPoly, Polynomial.degree_zero, List.length_nil]
    exact WithBot.bot_lt_coe 0
  | cons c cs ih =>
    have h1 : (Polynomial.C c).degree < ((cs.length + 1 : Nat) : WithBot Nat) :=
      lt_of_le_of_lt Polynomial.degree_C_le (by exact_mod_cast Nat.succ_pos cs.length)
    have h2 : (Polynomial.X * listPoly cs : Polynomial F).degree <
        ((cs.length + 1 : Nat) : WithBot Nat) := by
      have hle : (Polynomial.X * listPoly cs : Polynomial F).degree ≤ 1 + (listPoly cs).degree :=
        le_trans (Polynomial.degree_mul_le _ _) (add_le_add_right Polynomial.degree_X_le _)
      have hlt : (1 : WithBot Nat) + (listPoly cs).degree <
          1 + ((cs.length : Nat) : WithBot Nat) :=
        WithBot.add_lt_add_left (by simp) ih
      calc (Polynomial.X * listPoly cs : Polynomial F).degree
          ≤ 1 + (listPoly cs).degree := hle
        _ < 1 + ((cs.length : Nat) : WithBot Nat) := hlt
        _ = ((cs.length + 1 : Nat) : WithBot Nat) := by push_cast; ring
    calc (listPoly (c :: cs)).degree
        = (Polynomial.C c + Polynomial.X * listPoly cs).degree := by rw [listPoly]
      _ ≤ max (Polynomial.C c).degree (Polynomial.X * listPoly cs).degree :=
          Polynomial.degree_add_le _ _
      _ < ((cs.length + 1 : Nat) : WithBot Nat) := max_lt h1 h2

theorem eval0_basis {F : Type} [Field F] [DecidableEq F] {t : Nat} (xs : Fin t → F) (i : Fin t) :
    (Lagrange.basis Finset.univ xs i).eval 0 = lagrangeZero xs i := by
  rw [Lagrange.basis, Polynomial.eval_prod, lagrangeZero]
  apply Finset.prod_congr rfl
  intro j hj
  rw [Lagrange.basisDivisor]
  simp only [Polynomial.eval_mul, Polynomial.eval_C, Polynomial.eval_sub, Polynomial.eval_X]
  rw [show xs j - xs i = -(xs i - xs j) by ring, inv_neg]
  ring

theorem interpolate_eval0 {F : Type} [Field F] [DecidableEq F] {t : Nat} (xs r : Fin t → F) :
    (Lagrange.interpolate Finset.univ xs r).eval 0 = interpolateZero xs r := by
  rw [Lagrange.interpolate_apply, Polynomial.eval_finset_sum, interpolateZero]
  apply Finset.sum_congr rfl
  intro i _
  rw [Polynomial.eval_mul, Polynomial.eval_C, eval0_basis]

theorem interpolateZero_polyEval {F : Type} [Field F] [DecidableEq F] {t : Nat}
    (xs : Fin t → F) (hinj : Function.Injective xs) (c : F) (cs : List F)
    (hlen : cs.length < t) :
    interpolateZero xs (fun i => polyEval (c :: cs) (xs i)) = c := by
  have hdeg : (listPoly (c :: cs)).degree <
      (((Finset.univ : Finset (Fin t)).card : Nat) : WithBot Nat) := by
    have h := listPoly_degree_lt (F := F) (c :: cs)
    have hle : (((c :: cs).length : Nat) : WithBot Nat) ≤
        (((Finset.univ : Finset (Fin t)).card : Nat) : WithBot Nat) := by
      simp only [Finset.card_univ, Fintype.card_fin, List.length_cons]
      exact_mod_cast hlen
    exact lt_of_lt_of_le h hle
  have hP := Lagrange.eq_interpolate (f := listPoly (c :: cs)) (hinj.injOn) hdeg
  have hfun : (fun i : Fin t => Polynomial.eval (xs i) (listPoly (c :: cs))) =
      fun i => polyEval (c :: cs) (xs i) :=
    funext fun i => (polyEval_eq_eval (c :: cs) (xs i)).symm
  calc interpolateZero xs (fun i => polyEval (c :: cs) (xs i))
      = (Lagrange.interpolate Finset.univ xs (fun i => polyEval (c :: cs) (xs i))).eval 0 :=
        (interpolate_eval0 ..).symm
    _ = (listPoly (c :: cs)).eval 0 := by rw [← hfun, ← hP]
    _ = c := by simp [listPoly]

/-- C1: for every 32-byte secret, every valid pair `2 ≤ t ≤ n ≤ 255`, every
choice of distinct non-zero evaluation points and of random tail coefficients,
combining any `t` of the `n` shares produced by `Split` yields exactly the
secret. -/
theorem C1_split_combine_roundtrip {F : Type} [Field F] [DecidableEq F]
    (secret : List F) (rand : Nat → List F) (n t : Nat) (idx : Fin n → F) (sel : Fin t → Fin n)
    (hsecret : secret.length = 32)
    (h2 : 2 ≤ t) (htn : t ≤ n) (hn : n ≤ 255)
    (hidx : Function.Injective idx) (hnz : ∀ i, idx i ≠ 0)
    (hsel : Function.Injective sel)
    (hrand : ∀ j, (rand j).length = t - 1) :
    shamirCombine secret.length (fun i => shamirSplit secret rand idx (sel i)) = secret := by
  apply List.ext_getElem
  · simp [shamirCombine]
  · intro j h₁ h₂
    simp only [shamirCombine, List.getElem_map, List.getElem_range]
    have hload : ∀ i : Fin t, (shamirSplit secret rand idx (sel i)).2.getD j 0 =
        polyEval (secret.getD j 0 :: rand j) (idx (sel i)) := by
      intro i
      rw [shamirSplit, shamirShare]
      rw [List.getD_eq_getElem?_getD, List.getElem?_map, List.getElem?_range h₂]
      rfl
    rw [show (fun i : Fin t => (shamirSplit secret rand idx (sel i)).2.getD j 0) =
        fun i => polyEval (secret.getD j 0 :: rand j) (idx (sel i)) from funext hload]
    rw [show (fun i : Fin t => (shamirSplit secret rand idx (sel i)).1) =
        fun i => idx (sel i) from rfl]
    rw [interpolateZero_polyEval (fun i => idx (sel i)) (hidx.comp hsel)
        (secret.getD j 0) (rand j) (by rw [hrand]; omega)]
    rw [List.getD_eq_getElem?_getD, List.getElem?_eq_getElem h₂, Option.getD_some]

theorem C1_split_combine_roundtrip_witness :
    shamirCombine (List.replicate 32 (3 : GF5)).length
      (fun i => shamirSplit (List.replicate 32 (3 : GF5)) (fun _ => [1])
        (![1, 2, 3] : Fin 3 → GF5) ((![0, 1] : Fin 2 → Fin 3) i)) =
      List.replicate 32 (3 : GF5) :=
  C1_split_combine_roundtrip (List.replicate 32 (3 : GF5)) (fun _ => [1]) 3 2
    (![1, 2, 3] : Fin 3 → GF5) (![0, 1] : Fin 2 → Fin 3)
    (by decide) (by decide) (by decide) (by decide) (by decide) (by decide) (by decide)
    (fun _ => rfl)

/-! ### Theorems: retention sweep -/

theorem removeEmptyDirs_subset (files : List FSFile) (order : List (List String)) :
    ∀ ds x, x ∈ removeEmptyDirs files order ds → x ∈ ds := by
  induction order with
  | nil => intro ds x hx; exact hx
  | cons e rest ih =>
    intro ds x hx
    rw [removeEmptyDirs, List.foldl_cons] at hx
    have hx2 : x ∈ rmStep files ds e := ih (rmStep files ds e) x hx
    rw [rmStep] at hx2
    by_cases h : dirHasEntry ds files e
    · rwa [if_pos h] at hx2
    · rw [if_neg h] at hx2
      exact List.mem_of_mem_erase hx2

theorem removeEmptyDirs_removes (files : List FSFile) (d : List String)
    (hfile : ∀ f ∈ files, f.dir ≠ d) (order : List (List String)) :
    ∀ ds : List (List String), d ∈ order → ds.Nodup →
      (∀ e ∈ ds, ¬(e ≠ [] ∧ e.dropLast = d)) →
      d ∉ removeEmptyDirs files order ds := by
  induction order with
  | nil => intro ds hmem _ _; cases hmem
  | cons e rest ih =>
    intro ds hmem hnd hsub
    rw [removeEmptyDirs, List.foldl_cons]
    rcases List.mem_cons.mp hmem with he | hrest
    · subst he
      have hempty : dirHasEntry ds files d = false := by
        rw [Bool.eq_false_iff]
        intro hcon
        rw [dirHasEntry, Bool.or_eq_true] at hcon
        rcases hcon with hcon | hcon
        · rcases List.any_eq_true.mp hcon with ⟨f, hf, hfd⟩
          exact hfile f hf (of_decide_eq_true hfd)
        · rcases List.any_eq_true.mp hcon with ⟨x, hx, hxd⟩
          simp only [Bool.and_eq_true, decide_eq_true_eq] at hxd
          exact hsub x hx hxd
      have hstep : rmStep files ds d = ds.erase d := by
        rw [rmStep, hempty]
        simp
      rw [hstep]
      intro hcon
      have hin : d ∈ ds.erase d := removeEmptyDirs_subset files rest (ds.erase d) d hcon
      have := (List.Nodup.mem_erase_iff hnd).mp hin
      exact this.1 rfl
    · have hsub2 : ∀ x ∈ rmStep files ds e, ¬(x ≠ [] ∧ x.dropLast = d) := by
        intro x hx
        apply hsub
        rw [rmStep] at hx
        by_cases h : dirHasEntry ds files e
        · rwa [if_pos h] at hx
        · exact List.mem_of_mem_erase (by rwa [if_neg h] at hx)
      have hnd2 : (rmStep files ds e).Nodup := by
        rw [rmStep]
        by_cases h : dirHasEntry ds files e
        · rwa [if_pos h]
        · rw [if_neg h]
          exact hnd.erase e
      exact ih (rmStep files ds e) hrest hnd2 hsub2

/-- C5: running the retention sweep twice in succession over the same store,
with no new archives in between and the same threshold and reference time,
deletes nothing on the second run: the second sweep returns the first sweep's
store unchanged and an empty removal list. -/
theorem C5_second_sweep_noop (retentionDays now : Int) (order : List (List String))
    (st : Store) :
    checkRetentionPolicy retentionDays now order
        (checkRetentionPolicy retentionDays now order st).1 =
      ((checkRetentionPolicy retentionDays now order st).1, []) := by
  by_cases h : retentionDays ≤ 0
  · simp [checkRetentionPolicy, h]
  · have hfilter : ∀ files : List FSFile,
        (files.filter (fun f => !(expiredEncrypted (now - retentionDays) f))).filter
          (fun f => expiredEncrypted (now - retentionDays) f) = [] := by
      intro files
      rw [List.filter_eq_nil_iff]
      intro f hf
      have h2 := (List.mem_filter.mp hf).2
      simpa using h2
    have hkept : ∀ files : List FSFile,
        ((files.filter (fun f => !(expiredEncrypted (now - retentionDays) f))).filter
          (fun f => !(expiredEncrypted (now - retentionDays) f))) =
          files.filter (fun f => !(expiredEncrypted (now - retentionDays) f)) := by
      intro files
      rw [List.filter_eq_self]
      intro f hf
      exact (List.mem_filter.mp hf).2
    simp only [checkRetentionPolicy, if_neg h]
    simp [hfilter, hkept]

/-- C6 is refuted on a concrete store: the sweep deletes the only (expired)
archive `a/b/x.encrypted` and removes the now-empty directory `a/b`, but the
directory `a` — left without any entry by those deletions — survives, because
the single `filepath.Walk` pass visits `a` before `a/b` (top-down, not
bottom-up). -/
theorem C6_counterexample_empty_dir_survives :
    ["a"] ∈ (checkRetentionPolicy 30 100 [["a"], ["a", "b"]] nestedStore).1.dirs ∧
      dirHasEntry (checkRetentionPolicy 30 100 [["a"], ["a", "b"]] nestedStore).1.dirs
        (checkRetentionPolicy 30 100 [["a"], ["a", "b"]] nestedStore).1.files ["a"] = false := by
  exact ⟨by decide, by decide⟩

/-- C6 (amended): after a sweep with a positive threshold that removed at
least one file, no expired `.encrypted` file remains, and every directory that
holds no kept file and had no subdirectory in the original tree is removed by
the walk.  (A directory left empty only by the removal of its own empty
subdirectories is not removed in the same sweep — the walk visits parents
before children; see the counterexample.) -/
theorem C6_sweep_deletes_expired_and_prunes_leaf_dirs (retentionDays now : Int)
    (order : List (List String)) (st : Store) (d : List String)
    (hpos : 0 < retentionDays)
    (hrem : st.files.filter (fun f => expiredEncrypted (now - retentionDays) f) ≠ [])
    (hmem : d ∈ order) (hnd : st.dirs.Nodup)
    (hnosub : ∀ e ∈ st.dirs, ¬(e ≠ [] ∧ e.dropLast = d))
    (hnofile : ∀ f ∈ st.files,
      expiredEncrypted (now - retentionDays) f = false → f.dir ≠ d) :
    (∀ f ∈ (checkRetentionPolicy retentionDays now order st).1.files,
        hasEncSuffix f.name = true → ¬(f.mtime < now - retentionDays)) ∧
      d ∉ (checkRetentionPolicy retentionDays now order st).1.dirs := by
  have hneg : ¬ retentionDays ≤ 0 := by omega
  constructor
  · intro f hf hsuf
    simp only [checkRetentionPolicy, if_neg hneg] at hf
    have h2 := (List.mem_filter.mp hf).2
    simp only [expiredEncrypted, hsuf, Bool.not_eq_eq_eq_not, Bool.true_and,
      decide_eq_false_iff_not] at h2
    simpa using h2
  · simp only [checkRetentionPolicy, if_neg hneg]
    have hlen : 0 <
        (st.files.filter (fun f => expiredEncrypted (now - retentionDays) f)).length :=
      List.length_pos.mpr hrem
    simp only [gt_iff_lt, hlen, if_pos]
    apply removeEmptyDirs_removes _ d ?_ order _ hmem hnd hnosub
    intro f hf
    have hm := List.mem_filter.mp hf
    apply hnofile f hm.1
    have := hm.2
    simpa using this

/-- C10: the retention sweep never deletes a file whose name does not end in
`.encrypted`: any such file is still present — the identical record, contents
included — after a sweep with any threshold. -/
theorem C10_non_encrypted_files_preserved (retentionDays now : Int)
    (order : List (List String)) (st : Store) (f : FSFile)
    (hf : f ∈ st.files) (hsuf : hasEncSuffix f.name = false) :
    f ∈ (checkRetentionPolicy retentionDays now order st).1.files := by
  by_cases h : retentionDays ≤ 0
  · simpa [checkRetentionPolicy, h] using hf
  · simp only [checkRetentionPolicy, if_neg h]
    exact List.mem_filter.mpr ⟨hf, by simp [expiredEncrypted, hsuf]⟩

theorem C10_non_encrypted_files_preserved_witness :
    (⟨["a"], "notes.txt", -500, 3, [1, 2]⟩ : FSFile) ∈
      (checkRetentionPolicy 30 100 [["a"], ["a", "b"]]
        ⟨nestedStore.dirs, ⟨["a"], "notes.txt", -500, 3, [1, 2]⟩ :: nestedStore.files⟩).1.files :=
  C10_non_encrypted_files_preserved 30 100 [["a"], ["a", "b"]]
    ⟨nestedStore.dirs, ⟨["a"], "notes.txt", -500, 3, [1, 2]⟩ :: nestedStore.files⟩
    ⟨["a"], "notes.txt", -500, 3, [1, 2]⟩ (by decide) (by decide)

theorem C6_sweep_deletes_expired_and_prunes_leaf_dirs_witness :
    (∀ f ∈ (checkRetentionPolicy 30 100 [["b"]] ⟨[["b"]], [⟨["b"], "y.encrypted", 0, 1, []⟩]⟩).1.files,
        hasEncSuffix f.name = true → ¬(f.mtime < 100 - 30)) ∧
      ["b"] ∉ (checkRetentionPolicy 30 100 [["b"]]
        ⟨[["b"]], [⟨["b"], "y.encrypted", 0, 1, []⟩]⟩).1.dirs :=
  C6_sweep_deletes_expired_and_prunes_leaf_dirs 30 100 [["b"]]
    ⟨[["b"]], [⟨["b"], "y.encrypted", 0, 1, []⟩]⟩ ["b"]
    (by decide) (by decide) (by decide) (by decide) (by decide) (by decide)

/-! ### Theorems: archive placement path -/

theorem digitsLt_irrefl : ∀ a : List Nat, digitsLt a a = false := by
  intro a
  induction a with
  | nil => rfl
  | cons x xs ih =>
    rw [digitsLt, if_neg (lt_irrefl x), if_neg (lt_irrefl x)]
    exact ih

theorem digitsLt_asymm : ∀ a b : List Nat, digitsLt a b = true → digitsLt b a = false := by
  intro a
  induction a with
  | nil =>
    intro b h
    cases b with
    | nil => simp [digitsLt] at h
    | cons y ys => rfl
  | cons x xs ih =>
    intro b h
    cases b with
    | nil => simp [digitsLt] at h
    | cons y ys =>
      rw [digitsLt] at h
      by_cases h1 : x < y
      · rw [digitsLt, if_neg (by omega), if_pos h1]
      · by_cases h2 : y < x
        · rw [if_neg h1, if_pos h2] at h
          exact absurd h (by simp)
        · rw [if_neg h1, if_neg h2] at h
          rw [digitsLt, if_neg h2, if_neg h1]
          exact ih ys h

theorem digitsLt_append (pre : List Nat) :
    ∀ a b : List Nat, digitsLt (pre ++ a) (pre ++ b) = digitsLt a b := by
  induction pre with
  | nil => intro a b; rfl
  | cons x xs ih =>
    intro a b
    rw [List.cons_append, List.cons_append, digitsLt, if_neg (lt_irrefl x),
      if_neg (lt_irrefl x)]
    exact ih a b

set_option maxRecDepth 4000 in
theorem digitsLt_pad2 :
    ∀ a < 100, ∀ b < 100, digitsLt (pad2 a) (pad2 b) = decide (a < b) := by decide

theorem pathLt_cons_same (c : List Nat) (ps qs : List (List Nat)) :
    pathLt (c :: ps) (c :: qs) = pathLt ps qs := by
  rw [pathLt, digitsLt_irrefl]
  simp

theorem pathLt_head_lt (x₁ x₂ : List Nat) (r₁ r₂ : List (List Nat))
    (h : digitsLt x₁ x₂ = true) : pathLt (x₂ :: r₂) (x₁ :: r₁) = false := by
  rw [pathLt, digitsLt_asymm x₁ x₂ h, if_neg (by simp), h]
  simp

theorem pathLt_irrefl : ∀ p : List (List Nat), pathLt p p = false := by
  intro p
  induction p with
  | nil => rfl
  | cons c ps ih => rw [pathLt_cons_same]; exact ih

/-- C7 is refuted for monotonicity: 2025-01-15 precedes 2025-02-02, both are
valid timestamps, yet the later timestamp's placement path is ordered strictly
before the earlier one's — the hierarchy puts the day above the month
(`2025/02/02/…` sorts before `2025/15/01/…`). -/
theorem C7_counterexample_later_path_sorts_before :
    Timestamp.valid ⟨2025, 1, 15, 0, 0⟩ = true ∧ Timestamp.valid ⟨2025, 2, 2, 0, 0⟩ = true ∧
      Timestamp.before ⟨2025, 1, 15, 0, 0⟩ ⟨2025, 2, 2, 0, 0⟩ = true ∧
      pathLt (createArchitecturedDiskImageWithTime ⟨2025, 2, 2, 0, 0⟩)
        (createArchitecturedDiskImageWithTime ⟨2025, 1, 15, 0, 0⟩) = true :=
  ⟨by decide, by decide, by decide, by decide⟩

/-- C7 (amended): the placement path is a pure function of the timestamp —
deriving it twice from the same timestamp yields the same path — and it is
monotone in time within a calendar month: for valid timestamps with equal year
and month, a later timestamp never maps to a path ordered before the earlier
one.  Across months monotonicity fails, because the hierarchy is
year/day/month/hour (see the counterexample). -/
theorem C7_path_pure_and_monotone_within_month (t₁ t₂ : Timestamp)
    (hv₁ : Timestamp.valid t₁ = true) (hv₂ : Timestamp.valid t₂ = true)
    (hy : t₁.year = t₂.year) (hm : t₁.month = t₂.month)
    (hle : Timestamp.before t₁ t₂ = true ∨ t₁ = t₂) :
    (∀ s : Timestamp, s = t₁ →
        createArchitecturedDiskImageWithTime s = createArchitecturedDiskImageWithTime t₁) ∧
      pathLt (createArchitecturedDiskImageWithTime t₂)
        (createArchitecturedDiskImageWithTime t₁) = false := by
  refine ⟨fun s hs => by rw [hs], ?_⟩
  rcases hle with hb | rfl
  · obtain ⟨y₁, m₁, d₁, h₁, mi₁⟩ := t₁
    obtain ⟨y₂, m₂, d₂, h₂, mi₂⟩ := t₂
    simp only at hy hm
    subst hy
    subst hm
    simp only [Timestamp.before, Timestamp.valid, Bool.or_eq_true, Bool.and_eq_true,
      decide_eq_true_eq] at hb hv₁ hv₂
    have hd1 : d₁ < 100 := by omega
    have hd2 : d₂ < 100 := by omega
    have hh1 : h₁ < 100 := by omega
    have hh2 : h₂ < 100 := by omega
    have hmi1 : mi₁ < 100 := by omega
    have hmi2 : mi₂ < 100 := by omega
    have hcase : d₁ < d₂ ∨ (d₁ = d₂ ∧ (h₁ < h₂ ∨ (h₁ = h₂ ∧ mi₁ < mi₂))) := by
      omega
    rcases hcase with hd | ⟨rfl, hcase⟩
    · rw [createArchitecturedDiskImageWithTime, createArchitecturedDiskImageWithTime]
      simp only
      rw [pathLt_cons_same]
      exact pathLt_head_lt (pad2 d₁) (pad2 d₂) _ _
        (by rw [digitsLt_pad2 d₁ hd1 d₂ hd2]; simpa using hd)
    · rcases hcase with hh | ⟨rfl, hmi⟩
      · rw [createArchitecturedDiskImageWithTime, createArchitecturedDiskImageWithTime]
        simp only
        rw [pathLt_cons_same, pathLt_cons_same, pathLt_cons_same]
        exact pathLt_head_lt (pad2 h₁) (pad2 h₂) _ _
          (by rw [digitsLt_pad2 h₁ hh1 h₂ hh2]; simpa using hh)
      · rw [createArchitecturedDiskImageWithTime, createArchitecturedDiskImageWithTime]
        simp only
        rw [pathLt_cons_same, pathLt_cons_same, pathLt_cons_same, pathLt_cons_same]
        apply pathLt_head_lt
        simp only [List.append_assoc]
        rw [digitsLt_append, digitsLt_append, digitsLt_append, digitsLt_append]
        rw [digitsLt_pad2 mi₁ hmi1 mi₂ hmi2]
        simpa using hmi
  · exact pathLt_irrefl _

theorem C7_path_pure_and_monotone_within_month_witness :
    pathLt (createArchitecturedDiskImageWithTime ⟨2025, 3, 6, 0, 0⟩)
      (createArchitecturedDiskImageWithTime ⟨2025, 3, 5, 10, 0⟩) = false :=
  (C7_path_pure_and_monotone_within_month ⟨2025, 3, 5, 10, 0⟩ ⟨2025, 3, 6, 0, 0⟩
    (by decide) (by decide) rfl rfl (Or.inl (by decide))).2

/-! ### Theorems: two of three shares (C3) -/

theorem shamirShare_getD {F : Type} [Field F] (secret : List F) (rand : Nat → List F)
    (x : F) (j : Nat) (hj : j < secret.length) :
    (shamirShare secret rand x).getD j 0 = polyEval (secret.getD j 0 :: rand j) x := by
  rw [shamirShare, List.getD_eq_getElem?_getD, List.getElem?_map, List.getElem?_range hj]
  rfl

theorem lagrangeZero_two_zero {F : Type} [Field F] [DecidableEq F] (xs : Fin 2 → F) :
    lagrangeZero xs 0 = xs 1 * (xs 1 - xs 0)⁻¹ := by
  rw [lagrangeZero, show (Finset.univ.erase (0 : Fin 2)) = {1} from by decide,
    Finset.prod_singleton]

theorem lagrangeZero_two_one {F : Type} [Field F] [DecidableEq F] (xs : Fin 2 → F) :
    lagrangeZero xs 1 = xs 0 * (xs 0 - xs 1)⁻¹ := by
  rw [lagrangeZero, show (Finset.univ.erase (1 : Fin 2)) = {0} from by decide,
    Finset.prod_singleton]

theorem interpolateZero_two_quadratic {F : Type} [Field F] [DecidableEq F]
    (xs : Fin 2 → F) (s a b : F) (hne : xs 0 ≠ xs 1) :
    interpolateZero xs (fun i => polyEval [s, a, b] (xs i)) = s - b * (xs 0 * xs 1) := by
  rw [interpolateZero, Fin.sum_univ_two, lagrangeZero_two_zero, lagrangeZero_two_one]
  simp only [polyEval, List.foldr_cons, List.foldr_nil]
  have h1 : xs 1 - xs 0 ≠ 0 := sub_ne_zero_of_ne (Ne.symm hne)
  have h2 : xs 0 - xs 1 ≠ 0 := sub_ne_zero_of_ne hne
  field_simp
  ring

/-- C3 is refuted on a concrete instance: for a key split with `n = 3`,
`t = 3`, when every byte's degree-2 random coefficient happens to be zero
(possible, with probability `256⁻³²` per split in the GF(256) instance),
combining only 2 of the 3 shares reconstructs the key exactly, and decrypting
the archive then succeeds and returns the original plaintext
`"hello world!"` — not an authentication failure. -/
theorem C3_counterexample_two_shares_decrypt :
    shamirCombine 32 (fun i => shamirSplit (List.replicate 32 (2 : GF5)) (fun _ => [1, 0])
        (![1, 2, 3] : Fin 3 → GF5) ((![0, 1] : Fin 2 → Fin 3) i)) =
      List.replicate 32 (2 : GF5) ∧
      decryptFile (trivAEAD (List GF5))
          (shamirCombine 32 (fun i => shamirSplit (List.replicate 32 (2 : GF5)) (fun _ => [1, 0])
            (![1, 2, 3] : Fin 3 → GF5) ((![0, 1] : Fin 2 → Fin 3) i)))
          (encryptData (trivAEAD (List GF5)) (List.replicate 32 (2 : GF5)) (List.replicate 12 0)
            [104, 101, 108, 108, 111, 32, 119, 111, 114, 108, 100, 33]) =
        .ok [104, 101, 108, 108, 111, 32, 119, 111, 114, 108, 100, 33] :=
  ⟨by decide, rfl⟩

/-- C3 (amended): for a key split with `n = 3`, `t = 3`, whenever some byte's
degree-2 random coefficient is non-zero, combining any 2 of the 3 shares
yields a key different from the original, and decrypting the archive with
that wrong key ends in the authentication-failure error whenever the
authentication tag computed under the wrong key differs from the stored tag
(as AEAD security makes overwhelmingly likely); it can return the original
plaintext only in the measure-zero case excluded by these hypotheses. -/
theorem C3_two_of_three_shares_fail {F : Type} [Field F] [DecidableEq F]
    (secret : List F) (rand : Nat → List F) (idx : Fin 3 → F) (sel : Fin 2 → Fin 3)
    (hidx : Function.Injective idx) (hnz : ∀ i, idx i ≠ 0)
    (hsel : Function.Injective sel)
    (hrand : ∀ j, (rand j).length = 2)
    (j : Nat) (hj : j < secret.length) (hb : (rand j).getD 1 0 ≠ 0) :
    shamirCombine secret.length (fun i => shamirSplit secret rand idx (sel i)) ≠ secret ∧
      (∀ (A : AEAD (List F)) (nonce p : List Nat), nonce.length = nonceSize →
        A.tag (shamirCombine secret.length (fun i => shamirSplit secret rand idx (sel i)))
            nonce (ctrXor (A.ks secret nonce) p) ≠
          A.tag secret nonce (ctrXor (A.ks secret nonce) p) →
        decryptFile A
            (shamirCombine secret.length (fun i => shamirSplit secret rand idx (sel i)))
            (encryptData A secret nonce p) =
          .error "cipher: message authentication failed") := by
  constructor
  · intro hcon
    obtain ⟨a, b, hab⟩ := List.length_eq_two.mp (hrand j)
    have hel : (shamirCombine secret.length
        (fun i => shamirSplit secret rand idx (sel i))).getD j 0 = secret.getD j 0 := by
      rw [hcon]
    rw [shamirCombine, List.getD_eq_getElem?_getD, List.getElem?_map,
      List.getElem?_range hj] at hel
    simp only [Option.map_some', Option.getD_some] at hel
    have hload : (fun i : Fin 2 =>
        (shamirSplit secret rand idx (sel i)).2.getD j 0) =
        fun i => polyEval [secret.getD j 0, a, b] (idx (sel i)) := by
      funext i
      rw [shamirSplit]
      rw [shamirShare_getD secret rand (idx (sel i)) j hj, hab]
    rw [hload] at hel
    have hne : idx (sel 0) ≠ idx (sel 1) := by
      intro h
      exact absurd (hsel (hidx h)) (by decide)
    have hq := interpolateZero_two_quadratic (fun i => idx (sel i))
      (secret.getD j 0) a b hne
    rw [show (fun i : Fin 2 => (shamirSplit secret rand idx (sel i)).1) =
        fun i => idx (sel i) from rfl] at hel
    rw [hq] at hel
    have hzero : b * (idx (sel 0) * idx (sel 1)) = 0 := sub_eq_self.mp hel
    rcases mul_eq_zero.mp hzero with h0 | h0
    · exact hb (by rw [hab]; simpa using h0)
    · rcases mul_eq_zero.mp h0 with h1 | h1
      · exact hnz (sel 0) h1
      · exact hnz (sel 1) h1
  · intro A nonce p hnonce hmis
    have hct : (ctrXor (A.ks secret nonce) p).length = p.length := ctrXor_length _ _
    have htag : (A.tag secret nonce (ctrXor (A.ks secret nonce) p)).length = tagSize :=
      A.tag_len secret nonce _
    have hlen : (encryptData A secret nonce p).length =
        nonceSize + (p.length + tagSize) := by
      simp [encryptData, gcmSeal, hnonce, hct, htag]
    have htake : (encryptData A secret nonce p).take nonceSize = nonce := by
      rw [encryptData, ← hnonce, List.take_left]
    have hdrop : (encryptData A secret nonce p).drop nonceSize =
        gcmSeal A secret nonce p := by
      rw [encryptData, ← hnonce, List.drop_left]
    rw [decryptFile, if_neg (by omega), htake, hdrop]
    have hslen : (gcmSeal A secret nonce p).length = p.length + tagSize := by
      simp [gcmSeal, hct, htag]
    rw [gcmOpen, if_neg (by omega)]
    have hsub : (gcmSeal A secret nonce p).length - tagSize =
        (ctrXor (A.ks secret nonce) p).length := by omega
    rw [hsub,
      show gcmSeal A secret nonce p =
        ctrXor (A.ks secret nonce) p ++ A.tag secret nonce (ctrXor (A.ks secret nonce) p)
        from rfl,
      List.take_left, List.drop_left, if_neg (fun h => hmis h.symm)]

theorem C3_two_of_three_shares_fail_witness :
    shamirCombine (List.replicate 32 (2 : GF5)).length
      (fun i => shamirSplit (List.replicate 32 (2 : GF5)) (fun _ => [1, 1])
        (![1, 2, 3] : Fin 3 → GF5) ((![0, 1] : Fin 2 → Fin 3) i)) ≠
      List.replicate 32 (2 : GF5) :=
  (C3_two_of_three_shares_fail (List.replicate 32 (2 : GF5)) (fun _ => [1, 1])
    (![1, 2, 3] : Fin 3 → GF5) (![0, 1] : Fin 2 → Fin 3)
    (by decide) (by decide) (by decide) (fun _ => rfl) 0 (by decide) (by decide)).1

/-! ### Theorems: key generation flow -/

/-- C8 is refuted: when the key-file write succeeds and the metadata write
fails, the shares have already been displayed to the operator — the display
precedes the metadata write — and the run ends with the generic
`Failed to save key info` error, which names neither the persisted key file
nor the unwritten bundle metadata. -/
theorem C8_counterexample_shares_shown_before_metadata :
    keygenMain true true false =
        [.wroteKeyFile, .displayedShares, .errorSaveKeyInfo] ∧
      KeygenEvent.displayedShares ∈ keygenMain true true false ∧
      KeygenEvent.wroteMetadata ∉ keygenMain true true false :=
  ⟨rfl, by decide, by decide⟩

/-- C8 (amended): shares are displayed exactly when the key-file write and the
share split succeed — after the key write but before the metadata write — and
a metadata-write failure after a successful key write ends the run with the
generic `Failed to save key info` error, the shares having already been
displayed; the metadata is written only when every preceding step succeeded. -/
theorem C8_shares_displayed_before_metadata_write (keyWriteOk sharesOk metaWriteOk : Bool) :
    (KeygenEvent.displayedShares ∈ keygenMain keyWriteOk sharesOk metaWriteOk ↔
      keyWriteOk = true ∧ sharesOk = true) ∧
    (keyWriteOk = true → sharesOk = true → metaWriteOk = false →
      keygenMain keyWriteOk sharesOk metaWriteOk =
        [.wroteKeyFile, .displayedShares, .errorSaveKeyInfo]) ∧
    (KeygenEvent.wroteMetadata ∈ keygenMain keyWriteOk sharesOk metaWriteOk ↔
      keyWriteOk = true ∧ sharesOk = true ∧ metaWriteOk = true) := by
  cases keyWriteOk <;> cases sharesOk <;> cases metaWriteOk <;> exact (by decide)

theorem C8_shares_displayed_before_metadata_write_witness :
    keygenMain true true false = [.wroteKeyFile, .displayedShares, .errorSaveKeyInfo] :=
  (C8_shares_displayed_before_metadata_write true true false).2.1 rfl rfl rfl

/-! ### Theorems: brute-force harness -/

theorem workerLoop_first_event (stop succ : Nat → Bool) (m : Nat) :
    ∀ (fuel k : Nat), k ≤ m → m - k < fuel →
      (∀ j, k ≤ j → j < m → stop j = false ∧ succ j = false) →
      (stop m = false → succ m = true → workerLoop stop succ k fuel = .cracked m) ∧
      (stop m = true → workerLoop stop succ k fuel = .stopped m) := by
  intro fuel
  induction fuel with
  | zero => intro k _ hlt; omega
  | succ fuel ih =>
    intro k hkm hlt hpre
    by_cases hk : k = m
    · subst hk
      constructor
      · intro hs hsu
        simp [workerLoop, hs, hsu]
      · intro hs
        simp [workerLoop, hs]
    · have hkm2 : k < m := by omega
      have hstep := hpre k (le_refl k) hkm2
      have ih2 := ih (k + 1) (by omega) (by omega)
        (fun j hj1 hj2 => hpre j (by omega) hj2)
      constructor
      · intro hs hsu
        rw [workerLoop, if_neg (by simp [hstep.1]), if_neg (by simp [hstep.2])]
        exact ih2.1 hs hsu
      · intro hs
        rw [workerLoop, if_neg (by simp [hstep.1]), if_neg (by simp [hstep.2])]
        exact ih2.2 hs

/-- C9: in a run of the brute-force simulator where worker `i`'s first event
at iteration `m i` (nothing earlier stopped it and no earlier attempt
succeeded) is a successful Combine+Decrypt attempt, that worker halts at once
with the critical-failure result, performing no further attempts; and in a
run where each worker's stop signal fires at `m i` with no success before,
every worker exits cooperatively at its stop signal and the run completes
normally. -/
theorem C9_success_halts_else_cooperative_stop (w : Nat)
    (stop succ : Fin w → Nat → Bool) (fuel : Nat) (m : Fin w → Nat)
    (hfuel : ∀ i, m i < fuel)
    (hpre : ∀ i j, j < m i → stop i j = false ∧ succ i j = false) :
    (∀ i, stop i (m i) = false → succ i (m i) = true →
      runBruteForceTest w stop succ fuel i = .cracked (m i)) ∧
    (∀ i, stop i (m i) = true →
      runBruteForceTest w stop succ fuel i = .stopped (m i)) := by
  constructor
  · intro i hs hsu
    exact (workerLoop_first_event (stop i) (succ i) (m i) fuel 0 (Nat.zero_le _)
      (by have := hfuel i; omega) (fun j _ hj2 => hpre i j hj2)).1 hs hsu
  · intro i hs
    exact (workerLoop_first_event (stop i) (succ i) (m i) fuel 0 (Nat.zero_le _)
      (by have := hfuel i; omega) (fun j _ hj2 => hpre i j hj2)).2 hs

theorem C9_success_halts_else_cooperative_stop_witness :
    runBruteForceTest 1 (fun _ k => decide (2 ≤ k)) (fun _ _ => false) 5 0 =
      .stopped 2 :=
  (C9_success_halts_else_cooperative_stop 1 (fun _ k => decide (2 ≤ k)) (fun _ _ => false)
    5 (fun _ => 2) (fun _ => by show (2 : Nat) < 5; omega)
    (fun i j hj => by
      have hj2 : j < 2 := hj
      exact ⟨by simp only [decide_eq_false_iff_not]; omega, rfl⟩)).2 0 (by decide)

end Mobula
